import Mathlib

/-!
Verification of `contxt/cli/utils.py`: the field-projection subsystem
(`pluck`, `print_table`), the lazy client registry (`Clients`), and the
comma-separated-list option callback (`csv_callback`, `fields_option`).

Python values reached by `pluck` are modelled by the inductive `Obj`:
a leaf scalar or an object with an ordered attribute dictionary.
Raising an exception is modelled by `Option` (`none` = the call raised,
with no partial result observable by the caller).
-/

/-- A Python value as seen by `pluck`: either a scalar leaf or an object
whose attributes form an ordered dictionary (Python attribute access via
`getattr`). -/
inductive Obj where
  | leaf : String → Obj
  | node : List (String × Obj) → Obj

/-- Python `getattr(d, k)`: attribute lookup; `none` models `AttributeError`.
A leaf scalar exposes no user attributes. -/
def Obj.getattr : Obj → String → Option Obj
  | .leaf _, _ => none
  | .node attrs, k => (attrs.find? (fun p => p.1 == k)).map Prod.snd

/-- Whether `sep` is a prefix of the list: return the remainder, else `none`. -/
def dropPrefixCh : List Char → List Char → Option (List Char)
  | [], rest => some rest
  | _ :: _, [] => none
  | c :: cs, d :: ds => if c = d then dropPrefixCh cs ds else none

/-- Fuel-indexed worker for `pySplit`; fuel `≥` length of the input list
makes the fuel-exhausted branch unreachable for a non-empty separator. -/
def splitChAux (sep : List Char) : Nat → List Char → List Char → List (List Char)
  | _, [], acc => [acc.reverse]
  | 0, rest, acc => [acc.reverse ++ rest]
  | Nat.succ n, c :: cs, acc =>
    match dropPrefixCh sep (c :: cs) with
    | some rest => acc.reverse :: splitChAux sep n rest []
    | none => splitChAux sep n cs (c :: acc)

/-- Python `s.split(sep)` for a non-empty separator (the source only ever
separates on `"."` and `","`). CPython raises `ValueError` on an empty
separator; that case is inert here (returns `[s]`) and no claim uses it. -/
def pySplit (s : String) (sep : String) : List String :=
  if sep.data.isEmpty then [s]
  else (splitChAux sep.data s.data.length s.data []).map fun l => String.mk l

/-- Python `s.strip()`: drop whitespace from both ends. -/
def pyStrip (s : String) : String :=
  String.mk (((s.data.dropWhile Char.isWhitespace).reverse.dropWhile Char.isWhitespace).reverse)

/-- The fold `reduce(lambda d, k: getattr(d, k), path, d)`: left fold of attribute
lookup over the pre-split path, failing as soon as a step is missing. -/
def resolvePath : Obj → List String → Option Obj
  | d, [] => some d
  | d, k :: ks =>
    match d.getattr k with
    | some v => resolvePath v ks
    | none => none

/-- Python dict insertion: an existing key keeps its position and gets the
new value; a new key is appended. -/
def dictInsert (row : List (String × Obj)) (k : String) (v : Obj) : List (String × Obj) :=
  if row.any (fun p => p.1 == k) then
    row.map (fun p => if p.1 == k then (k, v) else p)
  else row ++ [(k, v)]

/-- The dict comprehension `{key_func(k): reduce(..., k.split(key_sep), d)
for k in keys}` built left to right over `keys`, aborting on the first
unresolvable path. -/
def pluckRowAux (key_func : String → String) (key_sep : String) (d : Obj) :
    List String → List (String × Obj) → Option (List (String × Obj))
  | [], row => some row
  | k :: ks, row =>
    match resolvePath d (pySplit k key_sep) with
    | some v => pluckRowAux key_func key_sep d ks (dictInsert row (key_func k) v)
    | none => none

/-- One projected row for one item. -/
def pluckRow (key_func : String → String) (key_sep : String) (keys : List String) (d : Obj) :
    Option Obj :=
  (pluckRowAux key_func key_sep d keys []).map Obj.node

/-- Model of `pluck(keys, items, key_sep=".", key_func=identity)` from
`contxt/cli/utils.py`: the outer list comprehension over `items`; the first
exception aborts the whole call (`none`, no partial result). -/
def pluck (keys : List String) (items : List Obj) (key_sep : String := ".")
    (key_func : String → String := id) : Option (List Obj) :=
  match items with
  | [] => some []
  | d :: ds =>
    match pluckRow key_func key_sep keys d with
    | some r => (pluck keys ds key_sep key_func).map (r :: ·)
    | none => none

/-- One console line produced by `print_table`: either the handoff
`Serializer.to_table(items, sort_by=...)` being printed, or the trailing
`Count: n` line. -/
inductive OutLine where
  | table : List Obj → Option String → OutLine
  | countLine : Nat → OutLine

/-- Lines 36-39 of `print_table`: `if items: print(Serializer.to_table(...))`
then `if count: print(f"Count: {len(items)}")`. -/
def emitLines (items : List Obj) (sort_by : Option String) (count : Bool) : List OutLine :=
  (if items.isEmpty then [] else [OutLine.table items sort_by]) ++
    (if count then [OutLine.countLine items.length] else [])

/-- Model of `print_table(items, keys=None, sort_by=None, count=True)` from
`contxt/cli/utils.py`. `if keys:` is Python truthiness: both `None` and the
empty list skip the projection. `none` models `pluck` raising. -/
def print_table (items : List Obj) (keys : Option (List String) := none)
    (sort_by : Option String := none) (count : Bool := true) : Option (List OutLine) :=
  match keys with
  | some ks =>
    if ks.isEmpty then some (emitLines items sort_by count)
    else
      (pluck ks items).map fun pits =>
        emitLines pits
          (if (match sort_by with
               | some sb => ks.contains sb
               | none => false) then sort_by else none)
          count
  | none => some (emitLines items sort_by count)

/-- The `(items, sort_by)` pair `print_table` actually renders, after the
`if keys:` block (lines 34-35 of the source): the projection step isolated
from the output step. -/
def projectedArgs (items : List Obj) (keys : Option (List String)) (sort_by : Option String) :
    Option (List Obj × Option String) :=
  match keys with
  | some ks =>
    if ks.isEmpty then some (items, sort_by)
    else
      (pluck ks items).map fun pits =>
        (pits,
          if (match sort_by with
              | some sb => ks.contains sb
              | none => false) then sort_by else none)
  | none => some (items, sort_by)

/-!
Heap-allocation model of the same `pluck` source lines, used for the frame
property: Python objects live in a heap addressed by `Nat`; every attribute
value is a reference; each row dict built by the comprehension is a fresh
allocation. `pluck` only reads existing objects and appends fresh rows.
-/

/-- A heap address (a Python object identity). -/
abbrev Addr := Nat

/-- The object heap: each allocated address carries its ordered attribute
dictionary (attribute values are references); `next` is the allocator
cursor, so addresses `≥ next` are unallocated. -/
structure Heap where
  objs : List (Addr × List (String × Addr))
  next : Addr

/-- Read an object's attribute dictionary off the heap. -/
def Heap.lookup (h : Heap) (a : Addr) : Option (List (String × Addr)) :=
  (h.objs.find? (fun p => p.1 == a)).map Prod.snd

/-- Attribute lookup `getattr` against the heap: `none` models `AttributeError`. -/
def getattrH (h : Heap) (a : Addr) (k : String) : Option Addr :=
  (h.lookup a).bind fun attrs => (attrs.find? (fun p => p.1 == k)).map Prod.snd

/-- The fold `reduce(getattr)` over a pre-split path, on the heap. -/
def resolvePathH (h : Heap) : Addr → List String → Option Addr
  | a, [] => some a
  | a, k :: ks =>
    match getattrH h a k with
    | some b => resolvePathH h b ks
    | none => none

/-- Python dict insertion for heap rows (values are references). -/
def dictInsertH (row : List (String × Addr)) (k : String) (v : Addr) : List (String × Addr) :=
  if row.any (fun p => p.1 == k) then
    row.map (fun p => if p.1 == k then (k, v) else p)
  else row ++ [(k, v)]

/-- The row dict comprehension for one item, on the heap: resolves every
path to a reference, building the fresh row's attribute table. -/
def pluckRowAuxH (h : Heap) (key_func : String → String) (key_sep : String) (a : Addr) :
    List String → List (String × Addr) → Option (List (String × Addr))
  | [], row => some row
  | k :: ks, row =>
    match resolvePathH h a (pySplit k key_sep) with
    | some v => pluckRowAuxH h key_func key_sep a ks (dictInsertH row (key_func k) v)
    | none => none

/-- Model of `pluck` with allocation made explicit: one fresh row object is
allocated per item; existing heap cells are never written. Returns the
row references and the extended heap. -/
def pluckH (key_func : String → String) (key_sep : String) (keys : List String) :
    Heap → List Addr → Option (List Addr × Heap)
  | h, [] => some ([], h)
  | h, a :: as =>
    match pluckRowAuxH h key_func key_sep a keys [] with
    | some attrs =>
      (pluckH key_func key_sep keys ⟨h.objs ++ [(h.next, attrs)], h.next + 1⟩ as).map
        fun p => (h.next :: p.1, p.2)
    | none => none

/-!
The `Clients` registry. The dataclass itself is in `contxt/cli/utils.py`;
its accessors are all of the shape `@cachedproperty def svc(self):
return SvcService(self.auth)`.
-/

/-- The eight services exposed by `Clients` in `contxt/cli/utils.py`. -/
inductive ServiceName where
  | assets | contxt | ems | events | facilities | health | iot | sis
deriving DecidableEq

/-- Opaque `CliAuth` credential handle; the registry never inspects it. -/
structure AuthCtx where
  token : String
deriving DecidableEq

/-- A constructed service client. `id` is the Python object identity
(allocation number), so identity-equality is equality of `id`; `auth` is
the `CliAuth` value passed to the constructor. Service internals are an
external collaborator and are not modelled. -/
structure ServiceClient where
  id : Nat
  service : ServiceName
  auth : AuthCtx
deriving DecidableEq

/-- The `Clients` dataclass state: the shared auth plus the memoization
cells of the eight `cachedproperty` accessors, with an allocation counter
`nextId` for object identity and a tally of constructor invocations. -/
structure Clients where
  auth : AuthCtx
  cache : List (ServiceName × ServiceClient)
  nextId : Nat
  constructions : Nat
deriving DecidableEq

/-- Constructor call `Clients(auth)`: fresh registry, nothing constructed yet. -/
def Clients.init (a : AuthCtx) : Clients := ⟨a, [], 0, 0⟩

/-- Modelled from the spec: `cachedproperty` lives in `contxt/utils`,
which is not under `src/`; spec section 9 describes it as an explicit
check-then-construct-then-store memoization per accessor. First access
constructs `SvcService(self.auth)` and stores it; later accesses return
the stored instance without reconstruction. -/
def Clients.access (c : Clients) (s : ServiceName) : ServiceClient × Clients :=
  match c.cache.find? (fun p => p.1 == s) with
  | some p => (p.2, c)
  | none =>
    let v : ServiceClient := ⟨c.nextId, s, c.auth⟩
    (v, { c with
            cache := c.cache ++ [(s, v)]
            nextId := c.nextId + 1
            constructions := c.constructions + 1 })

/-- Run a sequence of accessor calls, keeping only the registry state. -/
def Clients.runAccesses (c : Clients) : List ServiceName → Clients
  | [] => c
  | s :: rest => ((c.access s).2).runAccesses rest

/-!
`csv_callback(options, all=None)` and the `--fields` option.
-/

/-- The `value` a click callback receives: a raw string, or an already
materialized list (the non-string branch `fields = value`). -/
inductive ParamValue where
  | str : String → ParamValue
  | listVal : List String → ParamValue

/-- Outcome of the callback: the parsed field list, or
`click.BadParameter` naming the offending token. -/
inductive CallbackResult where
  | ok : List String → CallbackResult
  | badParameter : String → CallbackResult
deriving DecidableEq

/-- The `# Parse` stage of `csv_callback`'s `_callback`: literal `"all"`
becomes `all or options` (Python truthiness: a `None` or empty override
falls back to `options`); any other string is comma-split and stripped;
a non-string value passes through. -/
def parseFields (options : List String) (allv : Option (List String)) :
    ParamValue → List String
  | .str s =>
    if s == "all" then
      match allv with
      | none => options
      | some l => if l.isEmpty then options else l
    else (pySplit s ",").map pyStrip
  | .listVal fs => fs

/-- The `# Validate` stage: `for f in fields: if f not in options: raise
click.BadParameter(...)` — the first unrecognized token aborts. -/
def validateFields (options fields : List String) : CallbackResult :=
  match fields.find? (fun f => !options.contains f) with
  | some f => .badParameter f
  | none => .ok fields

/-- Model of `csv_callback(options, all)(ctx, param, value)` from
`contxt/cli/utils.py` (`ctx` and `param` are unused by the source). -/
def csv_callback (options : List String) (allv : Option (List String))
    (value : ParamValue) : CallbackResult :=
  validateFields options (parseFields options allv value)

/-- The callback `fields_option` installs:
`csv_callback(options=[f.attr_key for f in obj._api_fields], all=[])`. -/
def fields_option_callback (api_field_keys : List String) (value : ParamValue) :
    CallbackResult :=
  csv_callback api_field_keys (some []) value

/-- The canonical resolved value of field spec `k` on item `d` (defined
whenever the path actually resolves). -/
def resolveD (sep : String) (d : Obj) (k : String) : Obj :=
  (resolvePath d (pySplit k sep)).getD (Obj.node [])

/-- Sample item for the spec's scenario:
`obj1.name = "Acme"`, `obj1.address.city = "Austin"`. -/
def acme : Obj :=
  Obj.node [("name", Obj.leaf "Acme"), ("address", Obj.node [("city", Obj.leaf "Austin")])]

/-- The registry invariant: the stored auth is the constructor's auth,
every cached client was built with it, each constructor call filled
exactly one cache cell, and no service has two cells. -/
def ClientsInv (a : AuthCtx) (c : Clients) : Prop :=
  c.auth = a ∧ (∀ p ∈ c.cache, p.2.auth = a) ∧
    c.constructions = c.cache.length ∧ (c.cache.map Prod.fst).Nodup

/-! ### Helper lemmas about `dictInsert`, `pluckRowAux`, `pluck` -/

lemma replace_map_fst (row : List (String × Obj)) (k : String) (v : Obj) :
    (row.map fun p => if p.1 == k then (k, v) else p).map Prod.fst = row.map Prod.fst := by
  induction row with
  | nil => rfl
  | cons p ps ih =>
    by_cases h : p.1 == k
    · simp only [List.map_cons, if_pos h, ih]
      exact congrArg (· :: ps.map Prod.fst) (eq_of_beq h).symm
    · simp only [List.map_cons, if_neg h, ih]

lemma dictInsert_map_fst (row : List (String × Obj)) (k : String) (v : Obj) (s : String) :
    s ∈ (dictInsert row k v).map Prod.fst ↔ s ∈ row.map Prod.fst ∨ s = k := by
  unfold dictInsert
  by_cases h : row.any (fun p => p.1 == k)
  · rw [if_pos h, replace_map_fst]
    have hk : k ∈ row.map Prod.fst := by
      rcases List.any_eq_true.mp h with ⟨p, hp, hpk⟩
      exact List.mem_map.mpr ⟨p, hp, eq_of_beq hpk⟩
    constructor
    · exact Or.inl
    · rintro (hs | rfl)
      · exact hs
      · exact hk
  · rw [if_neg h]
    simp

lemma dictInsert_append (row : List (String × Obj)) (k : String) (v : Obj)
    (h : k ∉ row.map Prod.fst) : dictInsert row k v = row ++ [(k, v)] := by
  unfold dictInsert
  rw [if_neg]
  intro hany
  rcases List.any_eq_true.mp hany with ⟨p, hp, hpk⟩
  exact h (List.mem_map.mpr ⟨p, hp, eq_of_beq hpk⟩)

lemma pluckRowAux_some_fst (kf : String → String) (sep : String) (d : Obj) :
    ∀ (ks : List String) (row attrs : List (String × Obj)),
      pluckRowAux kf sep d ks row = some attrs →
      ∀ s, s ∈ attrs.map Prod.fst ↔ s ∈ row.map Prod.fst ∨ s ∈ ks.map kf := by
  intro ks
  induction ks with
  | nil =>
    intro row attrs h s
    simp only [pluckRowAux, Option.some.injEq] at h
    subst h; simp
  | cons k ks ih =>
    intro row attrs h s
    rw [pluckRowAux] at h
    cases hres : resolvePath d (pySplit k sep) with
    | none => rw [hres] at h; cases h
    | some v =>
      rw [hres] at h
      have := ih (dictInsert row (kf k) v) attrs h s
      rw [this, dictInsert_map_fst]
      simp only [List.map_cons, List.mem_cons]
      tauto

lemma pluckRowAux_isSome (kf : String → String) (sep : String) (d : Obj) :
    ∀ (ks : List String) (row : List (String × Obj)),
      (∀ k ∈ ks, (resolvePath d (pySplit k sep)).isSome) →
      (pluckRowAux kf sep d ks row).isSome := by
  intro ks
  induction ks with
  | nil => intro row _; simp [pluckRowAux]
  | cons k ks ih =>
    intro row hall
    rw [pluckRowAux]
    cases hres : resolvePath d (pySplit k sep) with
    | none =>
      have := hall k (List.mem_cons_self _ _)
      rw [hres] at this; cases this
    | some v => exact ih _ fun k' hk' => hall k' (List.mem_cons_of_mem _ hk')

lemma pluckRowAux_none_of (kf : String → String) (sep : String) (d : Obj) :
    ∀ (ks : List String) (row : List (String × Obj)),
      (∃ k ∈ ks, resolvePath d (pySplit k sep) = none) →
      pluckRowAux kf sep d ks row = none := by
  intro ks
  induction ks with
  | nil => rintro row ⟨k, hk, _⟩; cases hk
  | cons k ks ih =>
    rintro row ⟨k', hk', hnone⟩
    rw [pluckRowAux]
    rcases List.mem_cons.mp hk' with rfl | hmem
    · rw [hnone]
    · cases hres : resolvePath d (pySplit k sep) with
      | none => rfl
      | some v => exact ih _ ⟨k', hmem, hnone⟩

lemma pluckRowAux_nodup_eq (kf : String → String) (sep : String) (d : Obj) :
    ∀ (ks : List String) (row attrs : List (String × Obj)),
      (ks.map kf).Nodup → (∀ k ∈ ks, kf k ∉ row.map Prod.fst) →
      pluckRowAux kf sep d ks row = some attrs →
      attrs = row ++ ks.map (fun k => (kf k, resolveD sep d k)) ∧
        ∀ k ∈ ks, resolvePath d (pySplit k sep) = some (resolveD sep d k) := by
  intro ks
  induction ks with
  | nil =>
    intro row attrs _ _ h
    simp only [pluckRowAux, Option.some.injEq] at h
    subst h
    exact ⟨by simp, by intro k hk; cases hk⟩
  | cons k ks ih =>
    intro row attrs hnd hro h
    rw [pluckRowAux] at h
    cases hres : resolvePath d (pySplit k sep) with
    | none => rw [hres] at h; cases h
    | some v =>
      rw [hres] at h
      have hvd : resolveD sep d k = v := by
        unfold resolveD; rw [hres]; rfl
      have hins : dictInsert row (kf k) v = row ++ [(kf k, v)] :=
        dictInsert_append _ _ _ (hro k (List.mem_cons_self _ _))
      have h : pluckRowAux kf sep d ks (row ++ [(kf k, v)]) = some attrs := hins ▸ h
      have hnd' : (ks.map kf).Nodup := (List.nodup_cons.mp (by simpa using hnd)).2
      have hhead : kf k ∉ ks.map kf := (List.nodup_cons.mp (by simpa using hnd)).1
      have hro' : ∀ k' ∈ ks, kf k' ∉ (row ++ [(kf k, v)]).map Prod.fst := by
        intro k' hk'
        simp only [List.map_append, List.mem_append, List.map_cons, List.map_nil,
          List.mem_singleton]
        rintro (hmem | heq)
        · exact hro k' (List.mem_cons_of_mem _ hk') hmem
        · exact hhead (heq ▸ List.mem_map.mpr ⟨k', hk', rfl⟩)
      rcases ih _ attrs hnd' hro' h with ⟨heq, hres'⟩
      constructor
      · rw [heq, List.append_assoc]
        simp [hvd]
      · intro k' hk'
        rcases List.mem_cons.mp hk' with rfl | hmem
        · rw [hres, hvd]
        · exact hres' k' hmem

lemma pluckRow_some_node (kf : String → String) (sep : String) (keys : List String)
    (d : Obj) (r : Obj) (h : pluckRow kf sep keys d = some r) :
    ∃ attrs, pluckRowAux kf sep d keys [] = some attrs ∧ r = Obj.node attrs := by
  unfold pluckRow at h
  cases haux : pluckRowAux kf sep d keys [] with
  | none => rw [haux] at h; cases h
  | some attrs =>
    rw [haux] at h
    exact ⟨attrs, rfl, (Option.some.injEq _ _ ▸ h).symm⟩

lemma pluck_length (keys : List String) (sep : String) (kf : String → String) :
    ∀ (items : List Obj) (rows : List Obj),
      pluck keys items sep kf = some rows → rows.length = items.length := by
  intro items
  induction items with
  | nil => intro rows h; simp only [pluck, Option.some.injEq] at h; subst h; rfl
  | cons d ds ih =>
    intro rows h
    rw [pluck] at h
    cases hr : pluckRow kf sep keys d with
    | none => rw [hr] at h; cases h
    | some r =>
      rw [hr] at h
      cases hds : pluck keys ds sep kf with
      | none => rw [hds] at h; cases h
      | some rs =>
        rw [hds] at h
        simp only [Option.map_some', Option.some.injEq] at h
        subst h
        simp [ih rs hds]

lemma pluck_get (keys : List String) (sep : String) (kf : String → String) :
    ∀ (items : List Obj) (rows : List Obj), pluck keys items sep kf = some rows →
      ∀ (i : Nat) (h1 : i < items.length) (h2 : i < rows.length),
        pluckRow kf sep keys (items.get ⟨i, h1⟩) = some (rows.get ⟨i, h2⟩) := by
  intro items
  induction items with
  | nil => intro rows _ i h1; cases h1
  | cons d ds ih =>
    intro rows h i h1 h2
    rw [pluck] at h
    cases hr : pluckRow kf sep keys d with
    | none => rw [hr] at h; cases h
    | some r =>
      rw [hr] at h
      cases hds : pluck keys ds sep kf with
      | none => rw [hds] at h; cases h
      | some rs =>
        rw [hds] at h
        simp only [Option.map_some', Option.some.injEq] at h
        subst h
        cases i with
        | zero => exact hr
        | succ j => exact ih rs hds j (Nat.lt_of_succ_lt_succ h1) (Nat.lt_of_succ_lt_succ h2)

lemma pluck_isSome (keys : List String) (sep : String) (kf : String → String) :
    ∀ (items : List Obj), (∀ d ∈ items, (pluckRow kf sep keys d).isSome) →
      (pluck keys items sep kf).isSome := by
  intro items
  induction items with
  | nil => intro _; simp [pluck]
  | cons d ds ih =>
    intro hall
    rw [pluck]
    cases hr : pluckRow kf sep keys d with
    | none =>
      have := hall d (List.mem_cons_self _ _)
      rw [hr] at this; cases this
    | some r =>
      have := ih fun d' hd' => hall d' (List.mem_cons_of_mem _ hd')
      cases hds : pluck keys ds sep kf with
      | none => rw [hds] at this; cases this
      | some rs => simp

lemma pluck_none_of (keys : List String) (sep : String) (kf : String → String) :
    ∀ (items : List Obj), (∃ d ∈ items, pluckRow kf sep keys d = none) →
      pluck keys items sep kf = none := by
  intro items
  induction items with
  | nil => rintro ⟨d, hd, _⟩; cases hd
  | cons d ds ih =>
    rintro ⟨d', hd', hnone⟩
    rw [pluck]
    rcases List.mem_cons.mp hd' with rfl | hmem
    · rw [hnone]
    · cases hr : pluckRow kf sep keys d with
      | none => rfl
      | some r => rw [ih ⟨d', hmem, hnone⟩]; rfl

lemma pluck_mem (keys : List String) (sep : String) (kf : String → String) :
    ∀ (items : List Obj) (rows : List Obj), pluck keys items sep kf = some rows →
      ∀ r ∈ rows, ∃ d ∈ items, pluckRow kf sep keys d = some r := by
  intro items
  induction items with
  | nil =>
    intro rows h r hr
    simp only [pluck, Option.some.injEq] at h
    subst h; cases hr
  | cons d ds ih =>
    intro rows h r hr
    rw [pluck] at h
    cases hd : pluckRow kf sep keys d with
    | none => rw [hd] at h; cases h
    | some r0 =>
      rw [hd] at h
      cases hds : pluck keys ds sep kf with
      | none => rw [hds] at h; cases h
      | some rs =>
        rw [hds] at h
        simp only [Option.map_some', Option.some.injEq] at h
        subst h
        rcases List.mem_cons.mp hr with rfl | hmem
        · exact ⟨d, List.mem_cons_self _ _, hd⟩
        · rcases ih rs hds r hmem with ⟨d', hd', hrow⟩
          exact ⟨d', List.mem_cons_of_mem _ hd', hrow⟩

/-! ### Claims about `pluck` -/

/-- C1: for every item and every field spec, `pluck` computes the row
value under key `key_func(fieldSpec)` by splitting the spec on `key_sep`
and folding attribute lookup left-to-right from the item; row keys appear
in field-spec order; and on the spec's scenario
(`fieldSpecs = ["name", "address.city"]`, one item with `name = "Acme"`
and `address.city = "Austin"`) the result is
`[{"name": "Acme", "address.city": "Austin"}]`. -/
theorem C1_pluck_resolves_paths (keys : List String) (items : List Obj) (sep : String)
    (kf : String → String) (rows : List Obj) (hnd : (keys.map kf).Nodup)
    (h : pluck keys items sep kf = some rows) :
    (∀ (i : Nat) (h1 : i < items.length) (h2 : i < rows.length),
        rows.get ⟨i, h2⟩ =
          Obj.node (keys.map fun k => (kf k, resolveD sep (items.get ⟨i, h1⟩) k)) ∧
        ∀ k ∈ keys,
          resolvePath (items.get ⟨i, h1⟩) (pySplit k sep) =
            some (resolveD sep (items.get ⟨i, h1⟩) k)) ∧
      pluck ["name", "address.city"] [acme] =
        some [Obj.node [("name", Obj.leaf "Acme"), ("address.city", Obj.leaf "Austin")]] := by
  refine ⟨?_, rfl⟩
  intro i h1 h2
  have hrow := pluck_get keys sep kf items rows h i h1 h2
  rcases pluckRow_some_node kf sep keys _ _ hrow with ⟨attrs, haux, hnode⟩
  rcases pluckRowAux_nodup_eq kf sep (items.get ⟨i, h1⟩) keys [] attrs hnd
      (by intro k _ hk; simp at hk) haux with ⟨heq, hres⟩
  exact ⟨by rw [hnode, heq]; rfl, hres⟩

/-- Witness for C1 at the spec's concrete scenario. -/
theorem C1_witness :
    [Obj.node [("name", Obj.leaf "Acme"), ("address.city", Obj.leaf "Austin")]].get
        ⟨0, by decide⟩ =
      Obj.node (["name", "address.city"].map fun k =>
        (id k, resolveD "." ([acme].get ⟨0, by decide⟩) k)) :=
  ((C1_pluck_resolves_paths ["name", "address.city"] [acme] "." id
      [Obj.node [("name", Obj.leaf "Acme"), ("address.city", Obj.leaf "Austin")]]
      (by decide) rfl).1 0 (by decide) (by decide)).1

/-- C2: whenever every path resolves on every item, `pluck` returns one
row per item (same length, input order) and each row's key set is exactly
`{key_func k | k ∈ keys}`; for empty `items` the result is `[]` whatever
the field specs are. -/
theorem C2_pluck_shape (keys : List String) (items : List Obj) (sep : String)
    (kf : String → String) :
    ((∀ d ∈ items, ∀ k ∈ keys, (resolvePath d (pySplit k sep)).isSome) →
        ∃ rows, pluck keys items sep kf = some rows ∧ rows.length = items.length ∧
          ∀ r ∈ rows, ∃ attrs, r = Obj.node attrs ∧
            ∀ s, s ∈ attrs.map Prod.fst ↔ s ∈ keys.map kf) ∧
      pluck keys [] sep kf = some [] := by
  refine ⟨?_, rfl⟩
  intro hall
  have hsome : (pluck keys items sep kf).isSome := by
    refine pluck_isSome keys sep kf items fun d hd => ?_
    unfold pluckRow
    have := pluckRowAux_isSome kf sep d keys [] fun k hk => hall d hd k hk
    cases haux : pluckRowAux kf sep d keys [] with
    | none => rw [haux] at this; cases this
    | some attrs => simp
  cases hp : pluck keys items sep kf with
  | none => rw [hp] at hsome; cases hsome
  | some rows =>
    refine ⟨rows, rfl, pluck_length keys sep kf items rows hp, ?_⟩
    intro r hr
    rcases pluck_mem keys sep kf items rows hp r hr with ⟨d, _, hrow⟩
    rcases pluckRow_some_node kf sep keys d r hrow with ⟨attrs, haux, hnode⟩
    refine ⟨attrs, hnode, fun s => ?_⟩
    rw [pluckRowAux_some_fst kf sep d keys [] attrs haux s]
    simp

/-- Witness for C2 at the spec's concrete scenario. -/
theorem C2_witness :
    (∃ rows, pluck ["name", "address.city"] [acme] = some rows ∧
        rows.length = [acme].length ∧
        ∀ r ∈ rows, ∃ attrs, r = Obj.node attrs ∧
          ∀ s, s ∈ attrs.map Prod.fst ↔ s ∈ ["name", "address.city"].map id) ∧
      pluck ["name", "address.city"] [] = some [] :=
  ⟨(C2_pluck_shape ["name", "address.city"] [acme] "." id).1
      (by intro d hd k hk; fin_cases hd; fin_cases hk <;> rfl),
    (C2_pluck_shape ["name", "address.city"] [] "." id).2⟩

/-- C3: if any step of any field spec's split path fails to resolve on
some item, `pluck` fails as a whole (`none`): no partial result, no
per-item recovery, no sentinel substitution. -/
theorem C3_pluck_fail_fast (keys : List String) (items : List Obj) (sep : String)
    (kf : String → String)
    (h : ∃ d ∈ items, ∃ k ∈ keys, resolvePath d (pySplit k sep) = none) :
    pluck keys items sep kf = none := by
  rcases h with ⟨d, hd, k, hk, hnone⟩
  refine pluck_none_of keys sep kf items ⟨d, hd, ?_⟩
  unfold pluckRow
  rw [pluckRowAux_none_of kf sep d keys [] ⟨k, hk, hnone⟩]
  rfl

/-- Witness for C3: an item with no `missing` attribute aborts the call. -/
theorem C3_witness : pluck ["missing"] [Obj.node [("name", Obj.leaf "Acme")]] = none :=
  C3_pluck_fail_fast ["missing"] [Obj.node [("name", Obj.leaf "Acme")]] "." id
    ⟨Obj.node [("name", Obj.leaf "Acme")], by simp, "missing", by simp, rfl⟩

/-! ### Helper lemmas about `print_table` -/

lemma print_table_char (items : List Obj) (keys : Option (List String))
    (sort_by : Option String) (count : Bool) :
    print_table items keys sort_by count =
      (projectedArgs items keys sort_by).map fun p => emitLines p.1 p.2 count := by
  cases keys with
  | none => rfl
  | some ks =>
    cases ks with
    | nil => rfl
    | cons k ks' =>
      cases hp : pluck (k :: ks') items with
      | none => simp [print_table, projectedArgs, hp]
      | some pits =>
        simp only [print_table, projectedArgs, hp, List.isEmpty_cons, Bool.false_eq_true,
          if_false, Option.map_some']
        rfl

lemma mem_emitLines_table (items : List Obj) (sb : Option String) (count : Bool)
    (its : List Obj) (s : Option String)
    (h : OutLine.table its s ∈ emitLines items sb count) : its = items ∧ s = sb := by
  unfold emitLines at h
  rcases List.mem_append.mp h with h1 | h2
  · split at h1
    · cases h1
    · have := List.mem_singleton.mp h1
      injection this with h3 h4
      exact ⟨h3, h4⟩
  · split at h2
    · have := List.mem_singleton.mp h2
      injection this
    · cases h2

lemma mem_emitLines_count (items : List Obj) (sb : Option String) (count : Bool) (n : Nat)
    (h : OutLine.countLine n ∈ emitLines items sb count) :
    count = true ∧ n = items.length := by
  unfold emitLines at h
  rcases List.mem_append.mp h with h1 | h2
  · split at h1
    · cases h1
    · have := List.mem_singleton.mp h1
      injection this
  · split at h2
    next hc =>
      have := List.mem_singleton.mp h2
      injection this with h3
      exact ⟨hc, h3⟩
    · cases h2

lemma emitLines_getLast (items : List Obj) (sb : Option String) :
    (emitLines items sb true).getLast? = some (OutLine.countLine items.length) := by
  unfold emitLines
  rw [if_pos rfl]
  exact List.getLast?_concat _

lemma projectedArgs_none (items : List Obj) (ks : List String) (sort_by : Option String)
    (hne : ks ≠ []) (hp : pluck ks items = none) :
    projectedArgs items (some ks) sort_by = none := by
  cases ks with
  | nil => exact absurd rfl hne
  | cons k ks' => simp [projectedArgs, hp]

lemma projectedArgs_pluck (items : List Obj) (ks : List String) (sort_by : Option String)
    (its : List Obj) (sbe : Option String) (hne : ks ≠ [])
    (h : projectedArgs items (some ks) sort_by = some (its, sbe)) :
    pluck ks items = some its := by
  cases ks with
  | nil => exact absurd rfl hne
  | cons k ks' =>
    cases hp : pluck (k :: ks') items with
    | none => simp [projectedArgs, hp] at h
    | some pits =>
      simp only [projectedArgs, hp, List.isEmpty_cons, Bool.false_eq_true, if_false,
        Option.map_some', Option.some.injEq, Prod.mk.injEq] at h
      rw [h.1]

/-! ### Claims about `print_table` -/

/-- C5 as stated is false: with an empty (but given) field-spec list the
Python truthiness test `if keys:` skips the projection, so the raw items
are rendered, not `pluck([], items)`. -/
theorem C5_counterexample :
    ¬ (∀ (items : List Obj) (ks : List String) (sb : Option String) (count : Bool)
        (out : List OutLine), print_table items (some ks) sb count = some out →
        ∀ its s, OutLine.table its s ∈ out → pluck ks items = some its) := by
  intro h
  have := h [acme] [] none true (emitLines [acme] none true) rfl [acme] none
    (List.mem_cons_self _ _)
  have h2 : pluck ([] : List String) [acme] = some [Obj.node []] := rfl
  rw [h2] at this
  simp [acme] at this

/-- C5 (amended): when the given field-spec list is nonempty, the items
are restricted via `pluck` before rendering (a `pluck` failure aborts the
call, and any rendered table shows exactly the plucked rows); a given but
empty field-spec list is treated like `None` (no projection). -/
theorem C5_pluck_before_render (items : List Obj) (ks : List String) (sb : Option String)
    (count : Bool) (hne : ks ≠ []) :
    (pluck ks items = none → print_table items (some ks) sb count = none) ∧
      (∀ out, print_table items (some ks) sb count = some out →
        ∀ its s, OutLine.table its s ∈ out → pluck ks items = some its) ∧
      print_table items (some []) sb count = print_table items none sb count := by
  refine ⟨?_, ?_, rfl⟩
  · intro hp
    rw [print_table_char, projectedArgs_none items ks sb hne hp]
    rfl
  · intro out hout its s hmem
    rw [print_table_char] at hout
    cases hpa : projectedArgs items (some ks) sb with
    | none => rw [hpa] at hout; cases hout
    | some p =>
      obtain ⟨pits, sbe⟩ := p
      rw [hpa] at hout
      simp only [Option.map_some', Option.some.injEq] at hout
      subst hout
      have hi := (mem_emitLines_table pits sbe count its s hmem).1
      rw [hi]
      exact projectedArgs_pluck items ks sb pits sbe hne hpa

/-- Witness for C5 (amended) at a concrete nonempty field-spec list. -/
theorem C5_witness : pluck ["name"] [acme] = some [Obj.node [("name", Obj.leaf "Acme")]] :=
  (C5_pluck_before_render [acme] ["name"] none true (by decide)).2.1
    (emitLines [Obj.node [("name", Obj.leaf "Acme")]] none true) rfl
    [Obj.node [("name", Obj.leaf "Acme")]] none (List.mem_cons_self _ _)

/-- C6 as stated is false: with a given but empty field-spec list,
`if keys:` is skipped, so a sort key outside the (empty) field-spec list
is handed to the renderer unchanged instead of being cleared. -/
theorem C6_counterexample :
    ¬ (∀ (items : List Obj) (ks : List String) (sb : String) (count : Bool)
        (out : List OutLine), sb ∉ ks →
        print_table items (some ks) (some sb) count = some out →
        ∀ its s, OutLine.table its s ∈ out → s = none) := by
  intro h
  have := h [acme] [] "zip" true (emitLines [acme] (some "zip") true) (by simp) rfl
    [acme] (some "zip") (List.mem_cons_self _ _)
  cases this

/-- C6 (amended): when the given field-spec list is nonempty and the sort
key is not among the field specs, the effective sort key handed to the
rendering collaborator is cleared to `None`, silently (the call still
succeeds whenever `pluck` does). -/
theorem C6_sort_key_cleared (items : List Obj) (ks : List String) (sb : String)
    (count : Bool) (out : List OutLine) (hne : ks ≠ []) (hnot : sb ∉ ks)
    (h : print_table items (some ks) (some sb) count = some out) :
    (∀ its s, OutLine.table its s ∈ out → s = none) ∧
      ∃ its, projectedArgs items (some ks) (some sb) = some (its, none) := by
  rw [print_table_char] at h
  cases hpa : projectedArgs items (some ks) (some sb) with
  | none => rw [hpa] at h; cases h
  | some p =>
    obtain ⟨pits, sbe⟩ := p
    rw [hpa] at h
    simp only [Option.map_some', Option.some.injEq] at h
    subst h
    have hc : ks.contains sb = false := by
      rw [List.contains_eq_any_beq, List.any_eq_false]
      intro x hx
      simp only [beq_iff_eq]
      intro hxe
      exact hnot (hxe ▸ hx)
    have hsbe : sbe = none := by
      cases ks with
      | nil => exact absurd rfl hne
      | cons k ks' =>
        cases hp : pluck (k :: ks') items with
        | none => simp [projectedArgs, hp] at hpa
        | some pits' =>
          simp only [projectedArgs, hp, List.isEmpty_cons, Bool.false_eq_true, if_false,
            Option.map_some', Option.some.injEq, Prod.mk.injEq, hc] at hpa
          exact hpa.2.symm
    subst hsbe
    constructor
    · intro its s hmem
      exact (mem_emitLines_table pits none count its s hmem).2
    · exact ⟨pits, rfl⟩

/-- Witness for C6 (amended) at a concrete call. -/
theorem C6_witness :
    ∃ its, projectedArgs [acme] (some ["name"]) (some "zip") = some (its, none) :=
  (C6_sort_key_cleared [acme] ["name"] "zip" true
      (emitLines [Obj.node [("name", Obj.leaf "Acme")]] none true) (by decide) (by decide)
      rfl).2

/-- C8: on every successful call with `count = true`, the final output
line is `Count: n` where `n` is the length of the (possibly
pluck-restricted) items — also when that list is empty; with
`count = false` no count line is emitted. -/
theorem C8_count_line (items : List Obj) (keys : Option (List String)) (sb : Option String)
    (count : Bool) (out : List OutLine)
    (h : print_table items keys sb count = some out) :
    (count = true → ∃ its sbe, projectedArgs items keys sb = some (its, sbe) ∧
        (∀ ks, keys = some ks → ks ≠ [] → pluck ks items = some its) ∧
        out.getLast? = some (OutLine.countLine its.length)) ∧
      (count = false → ∀ n, OutLine.countLine n ∉ out) := by
  rw [print_table_char] at h
  cases hpa : projectedArgs items keys sb with
  | none => rw [hpa] at h; cases h
  | some p =>
    obtain ⟨pits, sbe⟩ := p
    rw [hpa] at h
    simp only [Option.map_some', Option.some.injEq] at h
    subst h
    constructor
    · rintro rfl
      exact ⟨pits, sbe, rfl, fun ks hks hne => projectedArgs_pluck items ks sb pits sbe hne
        (hks ▸ hpa), emitLines_getLast pits sbe⟩
    · rintro rfl n hmem
      exact absurd (mem_emitLines_count pits sbe false n hmem).1 (by decide)

/-- Witness for C8: empty items with no projection still emit `Count: 0`
as the final (only) line. -/
theorem C8_witness :
    ∃ its sbe, projectedArgs ([] : List Obj) none none = some (its, sbe) ∧
      (∀ ks, (none : Option (List String)) = some ks → ks ≠ [] → pluck ks [] = some its) ∧
      ([OutLine.countLine 0] : List OutLine).getLast? =
        some (OutLine.countLine its.length) :=
  (C8_count_line [] none none true [OutLine.countLine 0] rfl).1 rfl

/-! ### Helper lemmas about the `Clients` registry -/

lemma clientsInv_init (a : AuthCtx) : ClientsInv a (Clients.init a) :=
  ⟨rfl, fun p hp => absurd hp (List.not_mem_nil p), rfl, List.nodup_nil⟩

lemma access_preserves (a : AuthCtx) (c : Clients) (s : ServiceName)
    (h : ClientsInv a c) :
    ClientsInv a (c.access s).2 ∧ ((c.access s).1).auth = a := by
  obtain ⟨hauth, hcache, hcons, hnd⟩ := h
  unfold Clients.access
  cases hf : c.cache.find? (fun p => p.1 == s) with
  | some p =>
    exact ⟨⟨hauth, hcache, hcons, hnd⟩, hcache p (List.mem_of_find?_eq_some hf)⟩
  | none =>
    have hnot : s ∉ c.cache.map Prod.fst := by
      intro hmem
      rcases List.mem_map.mp hmem with ⟨p, hp, hps⟩
      exact absurd (by rw [hps]; exact beq_self_eq_true s)
        ((List.find?_eq_none.mp hf) p hp)
    refine ⟨⟨hauth, ?_, ?_, ?_⟩, hauth⟩
    · intro p hp
      rcases List.mem_append.mp hp with hp1 | hp2
      · exact hcache p hp1
      · rw [List.mem_singleton.mp hp2]
        exact hauth
    · simp [hcons]
    · rw [List.map_append, List.nodup_append]
      refine ⟨hnd, List.nodup_singleton _, fun x hx hxs => ?_⟩
      have hxe : x = s := List.mem_singleton.mp hxs
      exact hnot (hxe ▸ hx)

lemma access_idem (c : Clients) (s : ServiceName) :
    ((c.access s).2).access s = c.access s := by
  unfold Clients.access
  cases hf : c.cache.find? (fun p => p.1 == s) with
  | some p => simp [hf]
  | none =>
    have : ((c.cache ++ [(s, (⟨c.nextId, s, c.auth⟩ : ServiceClient))]).find?
        (fun p => p.1 == s)) = some (s, ⟨c.nextId, s, c.auth⟩) := by
      rw [List.find?_append, hf]
      simp
    simp [hf, this]

lemma runAccesses_inv (a : AuthCtx) :
    ∀ (l : List ServiceName) (c : Clients), ClientsInv a c →
      ClientsInv a (c.runAccesses l) := by
  intro l
  induction l with
  | nil => intro c h; exact h
  | cons s rest ih =>
    intro c h
    exact ih _ (access_preserves a c s h).1

/-! ### Claim about the `Clients` registry -/

/-- C4: after any sequence of accessor calls on a registry built from one
auth context, a repeated accessor call returns the identical (same
identity, same state) client without reconstruction; every constructed
client was passed the registry's single shared auth context unchanged;
and the constructor ran at most once per service (one construction per
cache cell, no service cached twice). -/
theorem C4_clients_registry (a : AuthCtx) (l : List ServiceName) (s : ServiceName) :
    ((((Clients.init a).runAccesses l).access s).2).access s =
        ((Clients.init a).runAccesses l).access s ∧
      ((((Clients.init a).runAccesses l).access s).1).auth = a ∧
      ((((Clients.init a).runAccesses l).access s).2).auth = a ∧
      ((Clients.init a).runAccesses l).auth = a ∧
      (∀ p ∈ ((Clients.init a).runAccesses l).cache, p.2.auth = a) ∧
      ((Clients.init a).runAccesses l).constructions =
        ((Clients.init a).runAccesses l).cache.length ∧
      (((Clients.init a).runAccesses l).cache.map Prod.fst).Nodup := by
  have hinv := runAccesses_inv a l (Clients.init a) (clientsInv_init a)
  have hacc := access_preserves a ((Clients.init a).runAccesses l) s hinv
  exact ⟨access_idem _ s, hacc.2, hacc.1.1, hinv.1, hinv.2.1, hinv.2.2.1, hinv.2.2.2⟩

/-- Witness for C4: double access of `iot` after one prior access is the
identity, and the one cached client holds the registry's auth. -/
theorem C4_witness :
    ((((Clients.init ⟨"t"⟩).runAccesses [ServiceName.iot]).access ServiceName.iot).2).access
        ServiceName.iot =
      ((Clients.init ⟨"t"⟩).runAccesses [ServiceName.iot]).access ServiceName.iot ∧
      (ServiceName.iot, (⟨0, ServiceName.iot, ⟨"t"⟩⟩ : ServiceClient)).2.auth =
        (⟨"t"⟩ : AuthCtx) :=
  ⟨(C4_clients_registry ⟨"t"⟩ [ServiceName.iot] ServiceName.iot).1,
    (C4_clients_registry ⟨"t"⟩ [ServiceName.iot] ServiceName.iot).2.2.2.2.1
      (ServiceName.iot, ⟨0, ServiceName.iot, ⟨"t"⟩⟩) (List.mem_cons_self _ _)⟩


/-! ### Helper lemmas about `csv_callback` -/

lemma find?_not_contains_self (options : List String) :
    options.find? (fun f => !options.contains f) = none := by
  rw [List.find?_eq_none]
  intro x hx
  have hc : options.contains x = true := by
    rw [List.contains_eq_any_beq, List.any_eq_true]
    exact ⟨x, hx, beq_self_eq_true x⟩
  simp [hc]
  exact hx

lemma validateFields_self (options : List String) :
    validateFields options options = .ok options := by
  unfold validateFields
  rw [find?_not_contains_self]

lemma validateFields_bad (options fields : List String)
    (h : ∃ f ∈ fields, f ∉ options) :
    ∃ t ∈ fields, t ∉ options ∧ validateFields options fields = .badParameter t := by
  have hsome : (fields.find? (fun f => !options.contains f)).isSome := by
    rw [List.find?_isSome]
    rcases h with ⟨f, hf, hfo⟩
    refine ⟨f, hf, ?_⟩
    simp only [Bool.not_eq_true']
    rw [List.contains_eq_any_beq, List.any_eq_false]
    intro y hy
    simp only [beq_iff_eq]
    intro hfy
    exact hfo (hfy ▸ hy)
  cases hf : fields.find? (fun f => !options.contains f) with
  | none => rw [hf] at hsome; cases hsome
  | some t =>
    refine ⟨t, List.mem_of_find?_eq_some hf, ?_, ?_⟩
    · have := List.find?_some hf
      simp only [Bool.not_eq_true'] at this
      intro hmem
      have hc : options.contains t = true := by
        rw [List.contains_eq_any_beq, List.any_eq_true]
        exact ⟨t, hmem, beq_self_eq_true t⟩
      rw [this] at hc
      cases hc
    · unfold validateFields
      rw [hf]

/-! ### Claims about `csv_callback` -/

/-- C7: the callback resolves literal `"all"` to the caller-given default
set (falling back to `options` when no override is given), comma-splits
and strips any other string, validates the resulting tokens against
`options` failing with `BadParameter` naming the (first) invalid token;
on `options = ["a","b","c"]`, `"a, b"` gives `["a","b"]` and `"a,z"`
fails naming `z`. -/
theorem C7_csv_callback (options l : List String) (s : String)
    (allv : Option (List String)) (value : ParamValue) :
    parseFields options none (.str "all") = options
    ∧ (l ≠ [] → parseFields options (some l) (.str "all") = l)
    ∧ (s ≠ "all" → parseFields options allv (.str s) = (pySplit s ",").map pyStrip)
    ∧ csv_callback options allv value = validateFields options (parseFields options allv value)
    ∧ ((∃ f ∈ parseFields options allv value, f ∉ options) →
        ∃ t ∈ parseFields options allv value, t ∉ options ∧
          csv_callback options allv value = .badParameter t)
    ∧ csv_callback ["a", "b", "c"] allv (.str "a, b") = .ok ["a", "b"]
    ∧ csv_callback ["a", "b", "c"] allv (.str "a,z") = .badParameter "z" := by
  refine ⟨rfl, ?_, ?_, rfl, ?_, rfl, rfl⟩
  · intro hne
    cases l with
    | nil => exact absurd rfl hne
    | cons f fs => rfl
  · intro hs
    simp only [parseFields]
    rw [if_neg]
    simp only [beq_iff_eq]
    exact hs
  · exact fun h => validateFields_bad options _ h

/-- Witness for C7: a nonempty override wins over `options`, and a bad
token in a comma list is reported. -/
theorem C7_witness :
    parseFields ["a", "b", "c"] (some ["b"]) (.str "all") = ["b"] ∧
      parseFields ["a", "b", "c"] none (.str "a, b") =
        (pySplit "a, b" ",").map pyStrip ∧
      csv_callback ["a", "b", "c"] none (.str "a,z") = .badParameter "z" :=
  ⟨(C7_csv_callback ["a", "b", "c"] ["b"] "x" none (.listVal [])).2.1 (by decide),
    (C7_csv_callback ["a", "b", "c"] [] "a, b" none (.listVal [])).2.2.1 (by decide),
    (C7_csv_callback ["a", "b", "c"] [] "x" none (.str "a,z")).2.2.2.2.2.2⟩

/-- C10: with the explicitly empty override `all=[]` that `fields_option`
passes, `"all"` still resolves to the full `options` list (Python's
`all or options` treats `[]` as falsy, so an empty default set cannot be
expressed); a non-empty override is itself validated against `options`,
so an override token outside `options` raises `BadParameter`. -/
theorem C10_fields_option_all (options l : List String) :
    fields_option_callback options (.str "all") = .ok options
    ∧ parseFields options (some []) (.str "all") = options
    ∧ (l ≠ [] → parseFields options (some l) (.str "all") = l)
    ∧ (l ≠ [] → (∃ f ∈ l, f ∉ options) →
        ∃ u ∈ l, u ∉ options ∧
          csv_callback options (some l) (.str "all") = .badParameter u) := by
  refine ⟨?_, rfl, ?_, ?_⟩
  · unfold fields_option_callback csv_callback
    exact validateFields_self options
  · intro hne
    cases l with
    | nil => exact absurd rfl hne
    | cons f fs => rfl
  · intro hne hbad
    have hparse : parseFields options (some l) (.str "all") = l := by
      cases l with
      | nil => exact absurd rfl hne
      | cons f fs => rfl
    rcases validateFields_bad options l hbad with ⟨t, ht, hto, hv⟩
    refine ⟨t, ht, hto, ?_⟩
    unfold csv_callback
    rw [hparse, hv]

/-- Witness for C10: `fields_option`-style callback with an out-of-options
override token. -/
theorem C10_witness :
    fields_option_callback ["a"] (.str "all") = .ok ["a"] ∧
      ∃ u ∈ ["q"], u ∉ ["a"] ∧
        csv_callback ["a"] (some ["q"]) (.str "all") = .badParameter u :=
  ⟨(C10_fields_option_all ["a"] []).1,
    (C10_fields_option_all ["a"] ["q"]).2.2.2 (by decide)
      ⟨"q", by decide, by decide⟩⟩

/-! ### Helper lemmas about the heap model -/

lemma heap_lookup_alloc (h : Heap) (attrs : List (String × Addr)) (a : Addr)
    (hne : a ≠ h.next) :
    Heap.lookup ⟨h.objs ++ [(h.next, attrs)], h.next + 1⟩ a = h.lookup a := by
  unfold Heap.lookup
  rw [List.find?_append]
  cases hf : h.objs.find? (fun p => p.1 == a) with
  | some p => rfl
  | none =>
    have : ((h.next, attrs).1 == a) = false := by
      simp only [beq_eq_false_iff_ne, ne_eq]
      exact fun he => hne he.symm
    simp [this]

lemma pluckH_spec (kf : String → String) (sep : String) (keys : List String) :
    ∀ (items : List Addr) (h : Heap) (rows : List Addr) (h2 : Heap),
      pluckH kf sep keys h items = some (rows, h2) →
      rows = List.range' h.next items.length ∧ h2.next = h.next + items.length ∧
        ∀ a, a < h.next → h2.lookup a = h.lookup a := by
  intro items
  induction items with
  | nil =>
    intro h rows h2 hp
    simp only [pluckH, Option.some.injEq, Prod.mk.injEq] at hp
    obtain ⟨hr, hh⟩ := hp
    subst hr
    subst hh
    exact ⟨rfl, rfl, fun a _ => rfl⟩
  | cons a as ih =>
    intro h rows h2 hp
    rw [pluckH] at hp
    cases hrow : pluckRowAuxH h kf sep a keys [] with
    | none => rw [hrow] at hp; cases hp
    | some attrs =>
      rw [hrow] at hp
      have hp2 : (pluckH kf sep keys ⟨h.objs ++ [(h.next, attrs)], h.next + 1⟩ as).map
          (fun p => (h.next :: p.1, p.2)) = some (rows, h2) := hp
      cases hrec : pluckH kf sep keys ⟨h.objs ++ [(h.next, attrs)], h.next + 1⟩ as with
      | none => rw [hrec] at hp2; cases hp2
      | some p =>
        obtain ⟨rs, h3⟩ := p
        rw [hrec] at hp2
        simp only [Option.map_some', Option.some.injEq, Prod.mk.injEq] at hp2
        obtain ⟨hrows, hh⟩ := hp2
        subst hh
        rcases ih _ rs h3 hrec with ⟨hr, hn, hfr⟩
        dsimp only at hr hn hfr
        refine ⟨?_, ?_, ?_⟩
        · rw [← hrows, hr]
          simp only [List.length_cons]
          rw [List.range'_succ h.next as.length 1]
        · rw [hn]
          simp only [List.length_cons]
          rw [Nat.add_assoc, Nat.add_comm 1 as.length]
        · intro b hb
          rw [hfr b (Nat.lt_succ_of_lt hb)]
          exact heap_lookup_alloc h attrs b (Nat.ne_of_lt hb)

/-! ### Claim about `pluck` as a frame property -/

/-- C9: in the allocation model, `pluck` writes no existing heap cell
(every address allocated before the call reads back unchanged, so the
input items — and a fortiori the field-spec list, which is passed by
value — are not mutated), and every returned row is a freshly allocated
object, pairwise distinct and disjoint from everything that existed
before the call. -/
theorem C9_pluck_no_mutation (kf : String → String) (sep : String) (keys : List String)
    (items : List Addr) (h : Heap) (rows : List Addr) (h2 : Heap)
    (hp : pluckH kf sep keys h items = some (rows, h2)) :
    (∀ a, a < h.next → h2.lookup a = h.lookup a) ∧
      (∀ r ∈ rows, h.next ≤ r) ∧ rows.Nodup := by
  rcases pluckH_spec kf sep keys items h rows h2 hp with ⟨hr, _, hfr⟩
  subst hr
  refine ⟨hfr, ?_, ?_⟩
  · intro r hrm
    exact (List.mem_range'_1.mp hrm).1
  · exact List.nodup_range' h.next items.length 1 Nat.one_pos

/-- Witness for C9 on a one-item heap: the pre-existing cells 0 and 1 are
unchanged and the single row is the fresh address 2. -/
theorem C9_witness :
    (∀ a, a < (⟨[(0, [("name", 1)]), (1, [])], 2⟩ : Heap).next →
        Heap.lookup ⟨[(0, [("name", 1)]), (1, []), (2, [("name", 1)])], 3⟩ a =
          Heap.lookup ⟨[(0, [("name", 1)]), (1, [])], 2⟩ a) ∧
      (∀ r ∈ ([2] : List Addr), (⟨[(0, [("name", 1)]), (1, [])], 2⟩ : Heap).next ≤ r) ∧
      ([2] : List Addr).Nodup :=
  C9_pluck_no_mutation id "." ["name"] [0] ⟨[(0, [("name", 1)]), (1, [])], 2⟩ [2]
    ⟨[(0, [("name", 1)]), (1, []), (2, [("name", 1)])], 3⟩ rfl
